import Mathlib

/-!
Verification of the text-to-speech pipeline of AutoPodcastGPT (`main.go`).

Texts are modelled as `List Char`; Go's byte length `len` is modelled as the
character count (they agree on ASCII input), and Go's `unicode.IsSpace` is
modelled on its Latin-1 fragment.  Fallible I/O is modelled with `Option`.
-/

/-- Models Go's `unicode.IsSpace` on the Latin-1 range: space, tab, newline,
vertical tab, form feed, carriage return, next line (U+0085) and no-break
space (U+00A0).  Space characters outside Latin-1 are not modelled. -/
def isSpace (c : Char) : Bool :=
  c == ' ' || c == '\t' || c == '\n' || c == Char.ofNat 11 || c == Char.ofNat 12 ||
  c == '\r' || c == Char.ofNat 133 || c == Char.ofNat 160

/-- The three sentence terminators used by `splitIntoSentences` in `main.go`
(`separators := []string{".", "?", "!"}`). -/
def sepChar (c : Char) : Bool :=
  c == '.' || c == '?' || c == '!'

/-- The sentinel `"|SEP|"` that `splitIntoSentences` inserts after each
terminator and then splits on. -/
def sepMarker : List Char := ['|', 'S', 'E', 'P', '|']

/-- All characters of a text that are not whitespace, in order. -/
def filterNS (s : List Char) : List Char := s.filter (fun c => !isSpace c)

/-- `isPre p s` holds when `p` is an initial segment of `s` (the matching
test used by Go's string search). -/
def isPre : List Char → List Char → Bool
  | [], _ => true
  | _ :: _, [] => false
  | a :: p, b :: s => a == b && isPre p s

/-- `containsSub s pat` holds when `pat` occurs as a contiguous substring of
`s` (Go's `strings.Contains`). -/
def containsSub : List Char → List Char → Bool
  | [], pat => isPre pat []
  | c :: rest, pat => isPre pat (c :: rest) || containsSub rest pat

/-- Models `strings.ReplaceAll(s, old, new)` for a one-character pattern
`old`, the only shape used by `splitIntoSentences`: every occurrence of the
character is replaced and replacements are not rescanned. -/
def replaceAllChar : List Char → Char → List Char → List Char
  | [], _, _ => []
  | c :: rest, old, new => (if c == old then new else [c]) ++ replaceAllChar rest old new

/-- Models `strings.Split(s, sep)` for non-empty `sep`: `s` is cut around
every leftmost non-overlapping occurrence of `sep`.  The first argument is
fuel; `splitOn` supplies `s.length`, which is enough because every step
consumes at least one character.  (Go treats an empty `sep` specially; that
case is never used by the program and the `sep ≠ []` guard keeps this
definition total without it.) -/
def splitOnGo : Nat → List Char → List Char → List (List Char)
  | _, [], _ => [[]]
  | 0, s, _ => [s]
  | Nat.succ fuel, c :: rest, sep =>
    if sep ≠ [] ∧ isPre sep (c :: rest) then
      [] :: splitOnGo fuel ((c :: rest).drop sep.length) sep
    else
      match splitOnGo fuel rest sep with
      | [] => [[c]]
      | h :: t => (c :: h) :: t

/-- Models `strings.Split` (see `splitOnGo`). -/
def splitOn (s sep : List Char) : List (List Char) := splitOnGo s.length s sep

/-- Models `strings.TrimSpace`: removes leading and trailing whitespace. -/
def trimSpace (s : List Char) : List Char :=
  ((s.dropWhile isSpace).reverse.dropWhile isSpace).reverse

/-- `splitIntoSentences` from `main.go` (lines 311-325): append the sentinel
`"|SEP|"` after every `.`, `?`, `!` via three `ReplaceAll` passes, split on
the sentinel, and trim every part.  (Empty parts are NOT dropped here.) -/
def splitIntoSentences (text : List Char) : List (List Char) :=
  let r1 := replaceAllChar text '.' ('.' :: sepMarker)
  let r2 := replaceAllChar r1 '?' ('?' :: sepMarker)
  let r3 := replaceAllChar r2 '!' ('!' :: sepMarker)
  (splitOn r3 sepMarker).map trimSpace

/-- Worker for `fields`: `acc` is the current (reversed) run of non-space
characters. -/
def fieldsGo : List Char → List Char → List (List Char)
  | [], acc => if acc = [] then [] else [acc.reverse]
  | c :: rest, acc =>
    if isSpace c then
      if acc = [] then fieldsGo rest [] else acc.reverse :: fieldsGo rest []
    else
      fieldsGo rest (c :: acc)

/-- Models `strings.Fields`: the maximal whitespace-free runs of `s`, in
order. -/
def fields (s : List Char) : List (List Char) := fieldsGo s []

/-- One iteration of the inner word loop of `splitTextIntoChunks`
(`main.go` lines 272-283).  State is `(chunks so far, partialSentence)`. -/
def wordStep (maxSize : Nat) (st : List (List Char) × List Char) (word : List Char) :
    List (List Char) × List Char :=
  let st1 := if st.2.length + word.length + 1 > maxSize then
      (if st.2.length > 0 then (st.1 ++ [st.2], ([] : List Char)) else st)
    else st
  (st1.1, (if st1.2.length > 0 then st1.2 ++ [' '] else st1.2) ++ word)

/-- One iteration of the sentence loop of `splitTextIntoChunks` (`main.go`
lines 257-300).  State is `(chunks so far, currentChunk)`. -/
def chunkStep (maxSize : Nat) (st : List (List Char) × List Char) (sentence0 : List Char) :
    List (List Char) × List Char :=
  let sentence := trimSpace sentence0
  if sentence = [] then st
  else if sentence.length > maxSize then
    let chunks1 := if st.2.length > 0 then st.1 ++ [st.2] else st.1
    let wst := (fields sentence).foldl (wordStep maxSize) (chunks1, ([] : List Char))
    (if wst.2.length > 0 then wst.1 ++ [wst.2] else wst.1, ([] : List Char))
  else
    let st1 := if st.2.length + sentence.length + 1 > maxSize then
        (st.1 ++ [st.2], ([] : List Char))
      else st
    (st1.1, (if st1.2.length > 0 then st1.2 ++ [' '] else st1.2) ++ sentence)

/-- `splitTextIntoChunks` from `main.go` (lines 252-308). -/
def splitTextIntoChunks (text : List Char) (maxSize : Nat) : List (List Char) :=
  let sentences := splitIntoSentences text
  let st := sentences.foldl (chunkStep maxSize) ([], [])
  if st.2.length > 0 then st.1 ++ [st.2] else st.1

/-- Joining a list of chunks with single spaces (the "space-joined
concatenation" used to restate chunk output as one text). -/
def joinSp : List (List Char) → List Char
  | [] => []
  | [c] => c
  | c :: rest => c ++ (' ' :: joinSp rest)

/-- Splitting a text directly after every terminator character.  This is the
proof-level characterization of what the sentinel insertion followed by
`strings.Split` computes on texts that do not already contain the sentinel. -/
def sentencesRaw : List Char → List (List Char)
  | [] => [[]]
  | c :: rest =>
    if sepChar c then [c] :: sentencesRaw rest
    else
      match sentencesRaw rest with
      | [] => [[c]]
      | h :: t => (c :: h) :: t

/-- The result of the three `ReplaceAll` passes of `splitIntoSentences`:
the input with the sentinel inserted after every terminator. -/
def encode : List Char → List Char
  | [] => []
  | c :: rest => if sepChar c then c :: (sepMarker ++ encode rest) else c :: encode rest

/-- The file name used for chunk number `index` (Go:
`filepath.Join(tmpDir, fmt.Sprintf("chunk_%d.mp3", index+1))`, modelled as
plain path concatenation for a clean directory name). -/
def chunkFileName (tmpDir : String) (index : Nat) : String :=
  tmpDir ++ "/chunk_" ++ toString (index + 1) ++ ".mp3"

/-- State of the scheduler model of `generateTTSAudioParallel`:
the pre-sized result slice, the errors captured so far in completion order
(Go's buffered `errors` channel), and the synthesis calls issued so far. -/
structure SchedSt where
  audioFiles : List String
  errs : List (Nat × String)
  calls : List (Nat × String × String)
deriving Repr, DecidableEq

/-- One task of `generateTTSAudioParallel` (`main.go` lines 530-544),
executed for chunk `index`: build the chunk file name, call the synthesis
function, and either record the error tagged `index+1` (Go:
`fmt.Errorf("chunk %d: %w", index+1, err)`) or store the file name at slot
`index`.  `synth text voice outFile` models `generateTTSAudio`, returning
`some cause` on failure and `none` on success. -/
def taskStep (chunks : List String) (voice tmpDir : String)
    (synth : String → String → String → Option String) (st : SchedSt) (index : Nat) :
    SchedSt :=
  let chunkFile := chunkFileName tmpDir index
  let text := chunks.getD index ""
  let calls := st.calls ++ [(index, text, chunkFile)]
  match synth text voice chunkFile with
  | some cause => { st with errs := st.errs ++ [(index + 1, cause)], calls := calls }
  | none => { audioFiles := st.audioFiles.set index chunkFile, errs := st.errs, calls := calls }

/-- Initial scheduler state: `audioFiles := make([]string, len(chunks))`
(zero value `""` in every slot), no errors, no calls yet. -/
def schedInit (chunks : List String) : SchedSt :=
  ⟨List.replicate chunks.length "", [], []⟩

/-- Final outcome of `generateTTSAudioParallel`: the artifact list on
success (`nil` on failure, modelled as `none`), the first error read from
the drained error channel, and the full call trace. -/
structure SchedResult where
  audioFiles : Option (List String)
  firstErr : Option (Nat × String)
  calls : List (Nat × String × String)
deriving Repr, DecidableEq

/-- `generateTTSAudioParallel` from `main.go` (lines 492-563).  Every task
writes a distinct slot of `audioFiles` and the channels serialize the error
sends, so a run of the concurrent code is modelled by the completion order
`order` (a permutation of the chunk indices) in which the per-chunk tasks
finish; `wg.Wait()` drains all tasks, hence the fold consumes all of
`order` before the error check (lines 548-560). -/
def generateTTSAudioParallel (chunks : List String) (voice tmpDir : String)
    (synth : String → String → String → Option String) (order : List Nat) : SchedResult :=
  let fin := order.foldl (taskStep chunks voice tmpDir synth) (schedInit chunks)
  match fin.errs with
  | [] => ⟨some fin.audioFiles, none, fin.calls⟩
  | e :: _ => ⟨none, some e, fin.calls⟩

/-- Whether the synthesis call for chunk `i` fails. -/
def synthFails (chunks : List String) (voice tmpDir : String)
    (synth : String → String → String → Option String) (i : Nat) : Bool :=
  (synth (chunks.getD i "") voice (chunkFileName tmpDir i)).isSome

/-- The tagged error the task for chunk `i` sends on failure. -/
def tagErr (chunks : List String) (voice tmpDir : String)
    (synth : String → String → String → Option String) (i : Nat) : Nat × String :=
  (i + 1, (synth (chunks.getD i "") voice (chunkFileName tmpDir i)).getD "")

/-- Phase of one synthesis task with respect to the admission semaphore
`semaphore := make(chan struct{}, 5)` of `generateTTSAudioParallel`:
`waiting` before `semaphore <- struct{}{}`, `running` while the task holds a
slot and its `generateTTSAudio` call executes, `done` after the deferred
release `<-semaphore`. -/
inductive TaskPhase
  | waiting
  | running
  | done
deriving Repr, DecidableEq

/-- Number of tasks currently holding a semaphore slot (synthesis calls in
flight). -/
def runningCount (s : List TaskPhase) : Nat :=
  s.countP (fun p => p == TaskPhase.running)

/-- Transitions of the admission-control system of
`generateTTSAudioParallel` (`main.go` lines 499, 533-534): a waiting task
may start only when fewer than 5 tasks hold a slot (the buffered-channel
send blocks otherwise), and a running task releases its slot only when its
synthesis call completes. -/
inductive SemStep : List TaskPhase → List TaskPhase → Prop
  | start (s : List TaskPhase) (i : Nat) (hw : s.getD i TaskPhase.done = TaskPhase.waiting)
      (hcap : runningCount s < 5) : SemStep s (s.set i TaskPhase.running)
  | finish (s : List TaskPhase) (i : Nat) (hr : s.getD i TaskPhase.done = TaskPhase.running) :
      SemStep s (s.set i TaskPhase.done)

/-- Reachability in the admission-control system. -/
inductive SemReach : List TaskPhase → List TaskPhase → Prop
  | refl (s : List TaskPhase) : SemReach s s
  | tail {s t u : List TaskPhase} : SemReach s t → SemStep t u → SemReach s u

/-- A filesystem, modelled as a map from file names to byte contents
(`none` = file does not exist / cannot be opened). -/
def FS : Type := String → Option (List Nat)

/-- Writing `data` to file `name`. -/
def fsUpdate (fs : FS) (name : String) (data : List Nat) : FS :=
  fun m => if m = name then some data else fs m

/-- One iteration of the copy loop of `concatenateMP3Files` (`main.go`
lines 414-424): open the next input file (failure aborts) and append its
bytes to the output file. -/
def copyStep (output : String) (acc : Option FS) (f : String) : Option FS :=
  match acc with
  | none => none
  | some fs =>
    match fs f with
    | none => none
    | some data => some (fsUpdate fs output ((fs output).getD [] ++ data))

/-- `concatenateMP3Files` from `main.go` (lines 406-427): `os.Create`
truncates the output file to zero bytes, then every input file's bytes are
appended in order.  Returns the resulting filesystem, or `none` when an
input file cannot be read. -/
def concatenateMP3Files (fs : FS) (files : List String) (output : String) : Option FS :=
  files.foldl (copyStep output) (some (fsUpdate fs output []))


/-! ### Substring machinery -/

theorem isPre_self_append (p t : List Char) : isPre p (p ++ t) = true := by
  induction p with
  | nil => rfl
  | cons a p ih => simp [isPre, ih]

theorem isPre_exists {p s : List Char} (h : isPre p s = true) : ∃ t, s = p ++ t := by
  induction p generalizing s with
  | nil => exact ⟨s, rfl⟩
  | cons a p ih =>
    cases s with
    | nil => simp [isPre] at h
    | cons b s =>
      simp only [isPre, Bool.and_eq_true, beq_iff_eq] at h
      obtain ⟨t, ht⟩ := ih h.2
      exact ⟨t, by simp [h.1, ht]⟩

theorem isPre_extend {p s : List Char} (u : List Char) (h : isPre p s = true) :
    isPre p (s ++ u) = true := by
  obtain ⟨t, rfl⟩ := isPre_exists h
  have := isPre_self_append p (t ++ u)
  simpa using this

theorem containsSub_nilPat (s : List Char) : containsSub s [] = true := by
  cases s <;> simp [containsSub, isPre]

theorem containsSub_append_right {s pat : List Char} (t : List Char)
    (h : containsSub s pat = true) : containsSub (s ++ t) pat = true := by
  induction s with
  | nil =>
    simp only [containsSub] at h
    cases pat with
    | nil => exact containsSub_nilPat t
    | cons a p => simp [isPre] at h
  | cons c rest ih =>
    simp only [containsSub, Bool.or_eq_true] at h ⊢
    rcases h with h | h
    · exact Or.inl (by simpa using isPre_extend t h)
    · exact Or.inr (ih h)

theorem containsSub_append_left {t pat : List Char} (s : List Char)
    (h : containsSub t pat = true) : containsSub (s ++ t) pat = true := by
  induction s with
  | nil => simpa using h
  | cons c rest ih =>
    simp only [List.cons_append, containsSub, Bool.or_eq_true]
    exact Or.inr ih

theorem containsSub_of_mid {w pat : List Char} (a b : List Char)
    (h : containsSub w pat = true) : containsSub (a ++ (w ++ b)) pat = true :=
  containsSub_append_left a (containsSub_append_right b h)

theorem mf_of_mid {w pat a b : List Char} (h : containsSub (a ++ (w ++ b)) pat = false) :
    containsSub w pat = false := by
  cases h2 : containsSub w pat with
  | false => rfl
  | true => rw [containsSub_of_mid a b h2] at h; simp at h

theorem noSpacePre {pat : List Char} (hp : ∀ c ∈ pat, isSpace c = false) :
    ∀ a b : List Char, isPre pat (a ++ ' ' :: b) = true → isPre pat a = true := by
  induction pat with
  | nil => intro a b _; rfl
  | cons p ps ih =>
    intro a b h
    cases a with
    | nil =>
      simp only [List.nil_append, isPre, Bool.and_eq_true, beq_iff_eq] at h
      have := hp p (by simp)
      rw [h.1] at this
      simp [isSpace] at this
    | cons x a' =>
      simp only [List.cons_append, isPre, Bool.and_eq_true] at h ⊢
      exact ⟨h.1, ih (fun c hc => hp c (by simp [hc])) a' b h.2⟩

theorem spaceBreak {pat : List Char} (hp : ∀ c ∈ pat, isSpace c = false)
    (a b : List Char) (ha : containsSub a pat = false) (hb : containsSub b pat = false) :
    containsSub (a ++ ' ' :: b) pat = false := by
  cases pat with
  | nil => rw [containsSub_nilPat] at ha; exact absurd ha (by simp)
  | cons p ps =>
    induction a with
    | nil =>
      simp only [List.nil_append, containsSub, Bool.or_eq_false_iff]
      refine ⟨?_, hb⟩
      have hpne : p ≠ ' ' := by
        intro he
        have := hp p (by simp)
        rw [he] at this
        simp [isSpace] at this
      simp [isPre, hpne]
    | cons x a' ih =>
      simp only [containsSub, Bool.or_eq_false_iff] at ha
      simp only [List.cons_append, containsSub, Bool.or_eq_false_iff]
      constructor
      · cases hx : isPre (p :: ps) (x :: (a' ++ ' ' :: b)) with
        | false => rfl
        | true =>
          have hx2 := noSpacePre hp (x :: a') b (by simpa using hx)
          rw [hx2] at ha
          simp at ha
      · exact ih ha.2

/-! ### The sentinel encoding and its split -/

theorem replaceAllChar_append (a b : List Char) (o : Char) (n : List Char) :
    replaceAllChar (a ++ b) o n = replaceAllChar a o n ++ replaceAllChar b o n := by
  induction a with
  | nil => rfl
  | cons c rest ih => simp [replaceAllChar, ih]

theorem encode_cons_sep {c : Char} (rest : List Char) (h : sepChar c = true) :
    encode (c :: rest) = c :: (sepMarker ++ encode rest) := by
  simp [encode, h]

theorem encode_cons_nonsep {c : Char} (rest : List Char) (h : sepChar c = false) :
    encode (c :: rest) = c :: encode rest := by
  simp [encode, h]

theorem sentencesRaw_cons_sep {c : Char} (rest : List Char) (h : sepChar c = true) :
    sentencesRaw (c :: rest) = [c] :: sentencesRaw rest := by
  simp [sentencesRaw, h]

theorem sentencesRaw_cons_nonsep {c : Char} (rest : List Char) (h : sepChar c = false) :
    sentencesRaw (c :: rest) =
      match sentencesRaw rest with
      | [] => [[c]]
      | hd :: t => (c :: hd) :: t := by
  simp [sentencesRaw, h]

theorem splitOnGo_cons (fuel : Nat) (c : Char) (rest sep : List Char) :
    splitOnGo (fuel + 1) (c :: rest) sep =
      if sep ≠ [] ∧ isPre sep (c :: rest) = true then
        [] :: splitOnGo fuel ((c :: rest).drop sep.length) sep
      else
        match splitOnGo fuel rest sep with
        | [] => [[c]]
        | h :: t => (c :: h) :: t := rfl

theorem encode3_eq (text : List Char) :
    replaceAllChar (replaceAllChar (replaceAllChar text '.' ('.' :: sepMarker)) '?'
      ('?' :: sepMarker)) '!' ('!' :: sepMarker) = encode text := by
  induction text with
  | nil => rfl
  | cons c rest ih =>
    have hstep : replaceAllChar (c :: rest) '.' ('.' :: sepMarker) =
        (if c == '.' then '.' :: sepMarker else [c]) ++ replaceAllChar rest '.' ('.' :: sepMarker) := rfl
    rw [hstep, replaceAllChar_append, replaceAllChar_append]
    rw [ih]
    by_cases h1 : c = '.'
    · subst h1
      rw [encode_cons_sep rest (by decide)]
      rfl
    · by_cases h2 : c = '?'
      · subst h2
        rw [encode_cons_sep rest (by decide)]
        rfl
      · by_cases h3 : c = '!'
        · subst h3
          rw [encode_cons_sep rest (by decide)]
          rfl
        · have e1 : (if c == '.' then '.' :: sepMarker else [c]) = [c] := by simp [h1]
          rw [e1]
          have e2 : replaceAllChar [c] '?' ('?' :: sepMarker) = [c] := by
            simp [replaceAllChar, h2]
          rw [e2]
          have e3 : replaceAllChar [c] '!' ('!' :: sepMarker) = [c] := by
            simp [replaceAllChar, h3]
          rw [e3]
          rw [encode_cons_nonsep rest (by simp [sepChar, h1, h2, h3])]
          rfl

theorem sepChar_not_space {c : Char} (h : sepChar c = true) : isSpace c = false := by
  simp only [sepChar, Bool.or_eq_true, beq_iff_eq] at h
  rcases h with (h | h) | h <;> subst h <;> decide

theorem sepChar_ne_bar {c : Char} (h : sepChar c = true) : ('|' == c) = false := by
  simp only [sepChar, Bool.or_eq_true, beq_iff_eq] at h
  rcases h with (h | h) | h <;> subst h <;> decide

theorem encode_pre_step {a : Char} {l u : List Char} (ha : sepChar a = false)
    (h : isPre (a :: l) (encode u) = true) : ∃ u2, u = a :: u2 ∧ isPre l (encode u2) = true := by
  cases u with
  | nil => simp [encode, isPre] at h
  | cons c rest =>
    by_cases hc : sepChar c = true
    · rw [encode_cons_sep rest hc] at h
      simp only [isPre, Bool.and_eq_true, beq_iff_eq] at h
      rw [← h.1] at hc
      rw [hc] at ha
      simp at ha
    · have hc2 : sepChar c = false := by revert hc; cases sepChar c <;> simp
      rw [encode_cons_nonsep rest hc2] at h
      simp only [isPre, Bool.and_eq_true, beq_iff_eq] at h
      exact ⟨rest, by rw [h.1], h.2⟩

theorem marker_pre_of_encode {u : List Char} (h : isPre sepMarker (encode u) = true) :
    isPre sepMarker u = true := by
  have h0 : isPre ('|' :: ('S' :: ('E' :: ('P' :: ('|' :: []))))) (encode u) = true := h
  obtain ⟨u1, he1, h1⟩ := encode_pre_step (by decide) h0
  obtain ⟨u2, he2, h2⟩ := encode_pre_step (by decide) h1
  obtain ⟨u3, he3, h3⟩ := encode_pre_step (by decide) h2
  obtain ⟨u4, he4, h4⟩ := encode_pre_step (by decide) h3
  obtain ⟨u5, he5, h5⟩ := encode_pre_step (by decide) h4
  subst he5; subst he4; subst he3; subst he2; subst he1
  exact isPre_self_append sepMarker u5

theorem sentencesRaw_ne_nil (u : List Char) : sentencesRaw u ≠ [] := by
  cases u with
  | nil => simp [sentencesRaw]
  | cons c rest =>
    by_cases h : sepChar c = true
    · rw [sentencesRaw_cons_sep rest h]
      simp
    · have h2 : sepChar c = false := by revert h; cases sepChar c <;> simp
      rw [sentencesRaw_cons_nonsep rest h2]
      cases sentencesRaw rest <;> simp

theorem splitOnGo_encode {u : List Char} :
    ∀ fuel : Nat, (encode u).length ≤ fuel → containsSub u sepMarker = false →
    splitOnGo fuel (encode u) sepMarker = sentencesRaw u := by
  induction u with
  | nil => intro fuel _ _; simp [encode, splitOnGo, sentencesRaw]
  | cons c rest ih =>
    intro fuel hfuel hmf
    have hmf2 : containsSub rest sepMarker = false := by
      simp only [containsSub, Bool.or_eq_false_iff] at hmf
      exact hmf.2
    by_cases hc : sepChar c = true
    · rw [encode_cons_sep rest hc] at hfuel ⊢
      simp only [List.length_cons, List.length_append] at hfuel
      have h5 : sepMarker.length = 5 := rfl
      rw [h5] at hfuel
      obtain ⟨f1, rfl⟩ : ∃ f1, fuel = f1 + 1 := ⟨fuel - 1, by omega⟩
      have hnp : ¬(sepMarker ≠ [] ∧ isPre sepMarker (c :: (sepMarker ++ encode rest)) = true) := by
        rintro ⟨-, hpre⟩
        have hb := sepChar_ne_bar hc
        have : isPre ('|' :: ('S' :: ('E' :: ('P' :: ('|' :: []))))) (c :: (sepMarker ++ encode rest)) = true := hpre
        simp only [isPre, Bool.and_eq_true] at this
        rw [hb] at this
        simp at this
      rw [splitOnGo_cons, if_neg hnp]
      obtain ⟨f2, rfl⟩ : ∃ f2, f1 = f2 + 1 := ⟨f1 - 1, by omega⟩
      have hunf : splitOnGo (f2 + 1) (sepMarker ++ encode rest) sepMarker =
          [] :: splitOnGo f2 ((sepMarker ++ encode rest).drop sepMarker.length) sepMarker := by
         rw [show sepMarker ++ encode rest = '|' :: (['S', 'E', 'P', '|'] ++ encode rest) from rfl]
         rw [splitOnGo_cons, if_pos ⟨by simp [sepMarker], isPre_self_append sepMarker (encode rest)⟩]
      rw [hunf, List.drop_left]
      show [c] :: splitOnGo f2 (encode rest) sepMarker = sentencesRaw (c :: rest)
      rw [ih f2 (by omega) hmf2, sentencesRaw_cons_sep rest hc]
    · have hc2 : sepChar c = false := by revert hc; cases sepChar c <;> simp
      rw [encode_cons_nonsep rest hc2] at hfuel ⊢
      simp only [List.length_cons] at hfuel
      obtain ⟨f1, rfl⟩ : ∃ f1, fuel = f1 + 1 := ⟨fuel - 1, by omega⟩
      have hnp : ¬(sepMarker ≠ [] ∧ isPre sepMarker (c :: encode rest) = true) := by
        rintro ⟨-, hpre⟩
        have := marker_pre_of_encode (u := c :: rest)
          (by rw [encode_cons_nonsep rest hc2]; exact hpre)
        simp only [containsSub, this, Bool.true_or] at hmf
        simp at hmf
      rw [splitOnGo_cons, if_neg hnp]
      rw [ih f1 (by omega) hmf2]
      rw [sentencesRaw_cons_nonsep rest hc2]

/-! ### Structure of the raw sentence split -/

theorem join_sentencesRaw (u : List Char) : (sentencesRaw u).flatten = u := by
  induction u with
  | nil => rfl
  | cons c rest ih =>
    by_cases hc : sepChar c = true
    · rw [sentencesRaw_cons_sep rest hc]
      simp [ih]
    · have hc2 : sepChar c = false := by revert hc; cases sepChar c <;> simp
      rw [sentencesRaw_cons_nonsep rest hc2]
      cases hsr : sentencesRaw rest with
      | nil => exact absurd hsr (sentencesRaw_ne_nil rest)
      | cons h t =>
        rw [hsr] at ih
        simpa using ih

theorem length_sentencesRaw (u : List Char) :
    (sentencesRaw u).length = (u.filter sepChar).length + 1 := by
  induction u with
  | nil => rfl
  | cons c rest ih =>
    by_cases hc : sepChar c = true
    · rw [sentencesRaw_cons_sep rest hc]
      simp [List.filter_cons, hc, ih]
    · have hc2 : sepChar c = false := by revert hc; cases sepChar c <;> simp
      rw [sentencesRaw_cons_nonsep rest hc2]
      cases hsr : sentencesRaw rest with
      | nil => exact absurd hsr (sentencesRaw_ne_nil rest)
      | cons h t =>
        rw [hsr] at ih
        simpa [List.filter_cons, hc2] using ih

theorem sentencesRaw_head_pre (u : List Char) :
    ∃ h t b, sentencesRaw u = h :: t ∧ u = h ++ b := by
  induction u with
  | nil => exact ⟨[], [], [], rfl, rfl⟩
  | cons c rest ih =>
    by_cases hc : sepChar c = true
    · exact ⟨[c], sentencesRaw rest, rest, sentencesRaw_cons_sep rest hc, rfl⟩
    · have hc2 : sepChar c = false := by revert hc; cases sepChar c <;> simp
      obtain ⟨h, t, b, hsr, hu⟩ := ih
      refine ⟨c :: h, t, b, ?_, by simp [hu]⟩
      rw [sentencesRaw_cons_nonsep rest hc2, hsr]

theorem sentencesRaw_mem_mid {u p : List Char} (hp : p ∈ sentencesRaw u) :
    ∃ a b, u = a ++ (p ++ b) := by
  induction u generalizing p with
  | nil =>
    simp [sentencesRaw] at hp
    exact ⟨[], [], by simp [hp]⟩
  | cons c rest ih =>
    by_cases hc : sepChar c = true
    · rw [sentencesRaw_cons_sep rest hc] at hp
      rcases List.mem_cons.mp hp with h | h
      · exact ⟨[], rest, by simp [h]⟩
      · obtain ⟨a, b, hab⟩ := ih h
        exact ⟨c :: a, b, by simp [hab]⟩
    · have hc2 : sepChar c = false := by revert hc; cases sepChar c <;> simp
      rw [sentencesRaw_cons_nonsep rest hc2] at hp
      obtain ⟨h, t, b, hsr, hu⟩ := sentencesRaw_head_pre rest
      rw [hsr] at hp
      rcases List.mem_cons.mp hp with hm | hm
      · exact ⟨[], b, by simp [hm, hu]⟩
      · have : p ∈ sentencesRaw rest := by rw [hsr]; exact List.mem_cons_of_mem h hm
        obtain ⟨a, b2, hab⟩ := ih this
        exact ⟨c :: a, b2, by simp [hab]⟩

/-! ### Trimming -/

theorem dropWhile_suffix (p : Char → Bool) (s : List Char) :
    ∃ a, s = a ++ s.dropWhile p := by
  induction s with
  | nil => exact ⟨[], rfl⟩
  | cons c rest ih =>
    by_cases hc : p c = true
    · obtain ⟨a, ha⟩ := ih
      exact ⟨c :: a, by rw [List.dropWhile_cons_of_pos hc]; simpa using ha⟩
    · have hc2 : p c = false := by revert hc; cases p c <;> simp
      refine ⟨[], ?_⟩
      rw [List.dropWhile_cons_of_neg (by simp [hc2])]
      rfl

theorem trimSpace_mid (s : List Char) : ∃ a b, s = a ++ (trimSpace s ++ b) := by
  obtain ⟨a, ha⟩ := dropWhile_suffix isSpace s
  obtain ⟨a2, ha2⟩ := dropWhile_suffix isSpace (s.dropWhile isSpace).reverse
  refine ⟨a, a2.reverse, ?_⟩
  have hd : s.dropWhile isSpace = trimSpace s ++ a2.reverse := by
    have := congrArg List.reverse ha2
    simpa [trimSpace] using this
  conv_lhs => rw [ha]
  rw [hd]

theorem filter_dropWhile_isSpace (s : List Char) :
    filterNS (s.dropWhile isSpace) = filterNS s := by
  induction s with
  | nil => rfl
  | cons c rest ih =>
    by_cases hc : isSpace c = true
    · rw [List.dropWhile_cons_of_pos hc]
      simp only [filterNS, List.filter_cons, hc]
      simpa [filterNS] using ih
    · have hc2 : isSpace c = false := by revert hc; cases isSpace c <;> simp
      rw [List.dropWhile_cons_of_neg (by simp [hc2])]

theorem filterNS_reverse (s : List Char) : filterNS s.reverse = (filterNS s).reverse := by
  simp [filterNS, List.filter_reverse]

theorem filter_trimSpace (s : List Char) : filterNS (trimSpace s) = filterNS s := by
  unfold trimSpace
  rw [filterNS_reverse, filter_dropWhile_isSpace, filterNS_reverse,
    List.reverse_reverse, filter_dropWhile_isSpace]

theorem head_dropWhile_not {p : Char → Bool} {s : List Char} {c : Char} {t : List Char}
    (h : s.dropWhile p = c :: t) : p c = false := by
  induction s with
  | nil => simp at h
  | cons d rest ih =>
    by_cases hd : p d = true
    · rw [List.dropWhile_cons_of_pos hd] at h
      exact ih h
    · have hd2 : p d = false := by revert hd; cases p d <;> simp
      rw [List.dropWhile_cons_of_neg (by simp [hd2])] at h
      cases h
      exact hd2

theorem dropWhile_eq_self_of_head {p : Char → Bool} {s : List Char}
    (h : ∀ c t, s = c :: t → p c = false) : s.dropWhile p = s := by
  cases s with
  | nil => rfl
  | cons c t => rw [List.dropWhile_cons_of_neg (by simp [h c t rfl])]

theorem trimSpace_eq_self {s : List Char} (h1 : s.dropWhile isSpace = s)
    (h2 : s.reverse.dropWhile isSpace = s.reverse) : trimSpace s = s := by
  unfold trimSpace
  rw [h1, h2, List.reverse_reverse]

theorem trimSpace_trimmed (s : List Char) : trimSpace (trimSpace s) = trimSpace s := by
  have hhead : ∀ c t, trimSpace s = c :: t → isSpace c = false := by
    intro c t h
    obtain ⟨a2, ha2⟩ := dropWhile_suffix isSpace (s.dropWhile isSpace).reverse
    have hpre : s.dropWhile isSpace = trimSpace s ++ a2.reverse := by
      have := congrArg List.reverse ha2
      simpa [trimSpace] using this
    rw [h] at hpre
    exact head_dropWhile_not (p := isSpace) (s := s) (by rw [hpre]; rfl)
  have hlast : ∀ c t, (trimSpace s).reverse = c :: t → isSpace c = false := by
    intro c t h
    have : (s.dropWhile isSpace).reverse.dropWhile isSpace = c :: t := by
      have : (trimSpace s).reverse = (s.dropWhile isSpace).reverse.dropWhile isSpace := by
        simp [trimSpace]
      rw [← this, h]
    exact head_dropWhile_not this
  exact trimSpace_eq_self (dropWhile_eq_self_of_head hhead) (dropWhile_eq_self_of_head hlast)

/-! ### Fields (word splitting) -/

theorem fieldsGo_cons_space {c : Char} (rest : List Char) (acc : List Char)
    (h : isSpace c = true) :
    fieldsGo (c :: rest) acc =
      if acc = [] then fieldsGo rest [] else acc.reverse :: fieldsGo rest [] := by
  simp [fieldsGo, h]

theorem fieldsGo_cons_nonspace {c : Char} (rest : List Char) (acc : List Char)
    (h : isSpace c = false) :
    fieldsGo (c :: rest) acc = fieldsGo rest (c :: acc) := by
  simp [fieldsGo, h]

theorem filterNS_append (a b : List Char) : filterNS (a ++ b) = filterNS a ++ filterNS b := by
  simp [filterNS, List.filter_append]

theorem filterNS_cons_space {c : Char} (rest : List Char) (h : isSpace c = true) :
    filterNS (c :: rest) = filterNS rest := by
  simp [filterNS, List.filter_cons, h]

theorem filterNS_cons_nonspace {c : Char} (rest : List Char) (h : isSpace c = false) :
    filterNS (c :: rest) = c :: filterNS rest := by
  simp [filterNS, List.filter_cons, h]

theorem flatten_fieldsGo (s : List Char) :
    ∀ acc, (fieldsGo s acc).flatten = acc.reverse ++ filterNS s := by
  induction s with
  | nil =>
    intro acc
    by_cases h : acc = []
    · simp [fieldsGo, h, filterNS]
    · simp [fieldsGo, h, filterNS]
  | cons c rest ih =>
    intro acc
    by_cases hc : isSpace c = true
    · rw [fieldsGo_cons_space rest acc hc, filterNS_cons_space rest hc]
      by_cases h : acc = []
      · rw [if_pos h, ih [], h]
      · rw [if_neg h]
        simp [ih []]
    · have hc2 : isSpace c = false := by revert hc; cases isSpace c <;> simp
      rw [fieldsGo_cons_nonspace rest acc hc2, filterNS_cons_nonspace rest hc2, ih (c :: acc)]
      simp

theorem flatten_fields (s : List Char) : (fields s).flatten = filterNS s := by
  simpa using flatten_fieldsGo s []

theorem fieldsGo_ne_nil (s : List Char) :
    ∀ acc w, w ∈ fieldsGo s acc → (acc = [] ∨ acc ≠ []) → w ≠ [] := by
  induction s with
  | nil =>
    intro acc w hw _
    by_cases h : acc = []
    · simp [fieldsGo, h] at hw
    · simp only [fieldsGo, if_neg h, List.mem_singleton] at hw
      subst hw
      simpa using h
  | cons c rest ih =>
    intro acc w hw _
    by_cases hc : isSpace c = true
    · rw [fieldsGo_cons_space rest acc hc] at hw
      by_cases h : acc = []
      · rw [if_pos h] at hw
        exact ih [] w hw (Or.inl rfl)
      · rw [if_neg h] at hw
        rcases List.mem_cons.mp hw with hw | hw
        · subst hw; simpa using h
        · exact ih [] w hw (Or.inl rfl)
    · have hc2 : isSpace c = false := by revert hc; cases isSpace c <;> simp
      rw [fieldsGo_cons_nonspace rest acc hc2] at hw
      exact ih (c :: acc) w hw (Or.inr (by simp))

theorem fields_ne_nil {s : List Char} {w : List Char} (hw : w ∈ fields s) : w ≠ [] :=
  fieldsGo_ne_nil s [] w hw (Or.inl rfl)

theorem fieldsGo_no_space (s : List Char) :
    ∀ acc, (∀ c ∈ acc, isSpace c = false) → ∀ w ∈ fieldsGo s acc, ∀ c ∈ w, isSpace c = false := by
  induction s with
  | nil =>
    intro acc hacc w hw
    by_cases h : acc = []
    · simp [fieldsGo, h] at hw
    · simp only [fieldsGo, if_neg h, List.mem_singleton] at hw
      subst hw
      intro c hc
      exact hacc c (by simpa using hc)
  | cons c rest ih =>
    intro acc hacc w hw
    by_cases hc : isSpace c = true
    · rw [fieldsGo_cons_space rest acc hc] at hw
      by_cases h : acc = []
      · rw [if_pos h] at hw
        exact ih [] (by simp) w hw
      · rw [if_neg h] at hw
        rcases List.mem_cons.mp hw with hw | hw
        · subst hw
          intro d hd
          exact hacc d (by simpa using hd)
        · exact ih [] (by simp) w hw
    · have hc2 : isSpace c = false := by revert hc; cases isSpace c <;> simp
      rw [fieldsGo_cons_nonspace rest acc hc2] at hw
      refine ih (c :: acc) ?_ w hw
      intro d hd
      rcases List.mem_cons.mp hd with hd | hd
      · subst hd; exact hc2
      · exact hacc d hd

theorem fields_no_space {s w : List Char} (hw : w ∈ fields s) : ∀ c ∈ w, isSpace c = false :=
  fieldsGo_no_space s [] (by simp) w hw

theorem fieldsGo_mid (s : List Char) :
    ∀ acc w, w ∈ fieldsGo s acc → ∃ a b, acc.reverse ++ s = a ++ (w ++ b) := by
  induction s with
  | nil =>
    intro acc w hw
    by_cases h : acc = []
    · simp [fieldsGo, h] at hw
    · simp only [fieldsGo, if_neg h, List.mem_singleton] at hw
      subst hw
      exact ⟨[], [], by simp⟩
  | cons c rest ih =>
    intro acc w hw
    by_cases hc : isSpace c = true
    · rw [fieldsGo_cons_space rest acc hc] at hw
      by_cases h : acc = []
      · rw [if_pos h] at hw
        obtain ⟨a, b, hab⟩ := ih [] w hw
        simp only [List.reverse_nil, List.nil_append] at hab
        exact ⟨acc.reverse ++ [c] ++ a, b, by simp [hab]⟩
      · rw [if_neg h] at hw
        rcases List.mem_cons.mp hw with hw | hw
        · subst hw
          exact ⟨[], c :: rest, by simp⟩
        · obtain ⟨a, b, hab⟩ := ih [] w hw
          simp only [List.reverse_nil, List.nil_append] at hab
          exact ⟨acc.reverse ++ [c] ++ a, b, by simp [hab]⟩
    · have hc2 : isSpace c = false := by revert hc; cases isSpace c <;> simp
      rw [fieldsGo_cons_nonspace rest acc hc2] at hw
      obtain ⟨a, b, hab⟩ := ih (c :: acc) w hw
      refine ⟨a, b, ?_⟩
      have hr : acc.reverse ++ c :: rest = (c :: acc).reverse ++ rest := by simp
      rw [hr, hab]

theorem fields_mid {s w : List Char} (hw : w ∈ fields s) : ∃ a b, s = a ++ (w ++ b) := by
  have := fieldsGo_mid s [] w hw
  simpa using this

/-! ### splitIntoSentences characterizations -/

theorem splitIntoSentences_def (text : List Char) :
    splitIntoSentences text =
      (splitOn (replaceAllChar (replaceAllChar (replaceAllChar text '.' ('.' :: sepMarker)) '?'
        ('?' :: sepMarker)) '!' ('!' :: sepMarker)) sepMarker).map trimSpace := rfl

theorem splitIntoSentences_eq_raw {text : List Char} (hmf : containsSub text sepMarker = false) :
    splitIntoSentences text = (sentencesRaw text).map trimSpace := by
  rw [splitIntoSentences_def, encode3_eq, splitOn]
  rw [splitOnGo_encode (encode text).length (le_refl _) hmf]

theorem mem_splitIntoSentences_trim {text s : List Char} (hs : s ∈ splitIntoSentences text) :
    ∃ p, s = trimSpace p := by
  rw [splitIntoSentences_def] at hs
  simp only [List.mem_map] at hs
  obtain ⟨p, _, hp⟩ := hs
  exact ⟨p, hp.symm⟩

theorem sentences_content {text : List Char} (hmf : containsSub text sepMarker = false) :
    filterNS (splitIntoSentences text).flatten = filterNS text := by
  rw [splitIntoSentences_eq_raw hmf]
  have hmap : ∀ parts : List (List Char),
      filterNS (parts.map trimSpace).flatten = filterNS parts.flatten := by
    intro parts
    induction parts with
    | nil => rfl
    | cons p rest ih =>
      simp only [List.map_cons, List.flatten_cons, filterNS_append, filter_trimSpace, ih]
  rw [hmap, join_sentencesRaw]

theorem sentences_mf {text : List Char} (hmf : containsSub text sepMarker = false) :
    ∀ s ∈ splitIntoSentences text, containsSub s sepMarker = false := by
  intro s hs
  rw [splitIntoSentences_eq_raw hmf] at hs
  simp only [List.mem_map] at hs
  obtain ⟨p, hp, rfl⟩ := hs
  obtain ⟨a, b, hab⟩ := sentencesRaw_mem_mid hp
  have hpmf : containsSub p sepMarker = false := mf_of_mid (by rw [← hab]; exact hmf)
  obtain ⟨a2, b2, hab2⟩ := trimSpace_mid p
  exact mf_of_mid (by rw [← hab2]; exact hpmf)

theorem length_splitIntoSentences {text : List Char}
    (hmf : containsSub text sepMarker = false) :
    (splitIntoSentences text).length = (text.filter sepChar).length + 1 := by
  rw [splitIntoSentences_eq_raw hmf, List.length_map, length_sentencesRaw]

/-! ### Chunk building: case shapes -/

theorem filterNS_nil : filterNS [] = [] := rfl

theorem filterNS_idem (s : List Char) : filterNS (filterNS s) = filterNS s := by
  simp [filterNS, List.filter_filter, Bool.and_self]

theorem filterNS_space_cons (w : List Char) : filterNS (' ' :: w) = filterNS w :=
  filterNS_cons_space w (by decide)

theorem wordStep_flush (m : Nat) (st : List (List Char) × List Char) (w : List Char)
    (h1 : st.2.length + w.length + 1 > m) (h2 : st.2.length > 0) :
    wordStep m st w = (st.1 ++ [st.2], w) := by
  simp [wordStep, h1, h2]

theorem wordStep_skip (m : Nat) (st : List (List Char) × List Char) (w : List Char)
    (h1 : st.2.length + w.length + 1 > m) (h2 : ¬st.2.length > 0) :
    wordStep m st w = (st.1, w) := by
  have he : st.2 = [] := by
    cases hs : st.2 with
    | nil => rfl
    | cons a t => rw [hs] at h2; simp at h2
  simp [wordStep, h2, he]

theorem wordStep_add (m : Nat) (st : List (List Char) × List Char) (w : List Char)
    (h1 : ¬st.2.length + w.length + 1 > m) :
    wordStep m st w = (st.1, (if st.2.length > 0 then st.2 ++ [' '] else st.2) ++ w) := by
  simp [wordStep, h1]

theorem chunkStep_skip (m : Nat) (st : List (List Char) × List Char) (s0 : List Char)
    (h : trimSpace s0 = []) : chunkStep m st s0 = st := by
  simp [chunkStep, h]

theorem chunkStep_oversized (m : Nat) (st : List (List Char) × List Char) (s0 : List Char)
    (h : ¬trimSpace s0 = []) (h2 : (trimSpace s0).length > m) :
    chunkStep m st s0 =
      (if ((fields (trimSpace s0)).foldl (wordStep m)
            ((if st.2.length > 0 then st.1 ++ [st.2] else st.1), ([] : List Char))).2.length > 0 then
         ((fields (trimSpace s0)).foldl (wordStep m)
            ((if st.2.length > 0 then st.1 ++ [st.2] else st.1), ([] : List Char))).1 ++
           [((fields (trimSpace s0)).foldl (wordStep m)
            ((if st.2.length > 0 then st.1 ++ [st.2] else st.1), ([] : List Char))).2]
       else ((fields (trimSpace s0)).foldl (wordStep m)
            ((if st.2.length > 0 then st.1 ++ [st.2] else st.1), ([] : List Char))).1,
       ([] : List Char)) := by
  simp only [chunkStep, h, h2]
  simp

theorem chunkStep_normal_flush (m : Nat) (st : List (List Char) × List Char) (s0 : List Char)
    (h : ¬trimSpace s0 = []) (h2 : ¬(trimSpace s0).length > m)
    (h3 : st.2.length + (trimSpace s0).length + 1 > m) :
    chunkStep m st s0 = (st.1 ++ [st.2], trimSpace s0) := by
  simp [chunkStep, h, h2, h3]

theorem chunkStep_normal_noflush (m : Nat) (st : List (List Char) × List Char) (s0 : List Char)
    (h : ¬trimSpace s0 = []) (h2 : ¬(trimSpace s0).length > m)
    (h3 : ¬st.2.length + (trimSpace s0).length + 1 > m) :
    chunkStep m st s0 =
      (st.1, (if st.2.length > 0 then st.2 ++ [' '] else st.2) ++ trimSpace s0) := by
  simp [chunkStep, h, h2, h3]

theorem splitTextIntoChunks_def (text : List Char) (m : Nat) :
    splitTextIntoChunks text m =
      (if ((splitIntoSentences text).foldl (chunkStep m) ([], [])).2.length > 0 then
         ((splitIntoSentences text).foldl (chunkStep m) ([], [])).1 ++
           [((splitIntoSentences text).foldl (chunkStep m) ([], [])).2]
       else ((splitIntoSentences text).foldl (chunkStep m) ([], [])).1) := rfl

/-! ### Chunk building: content preservation -/

theorem finalize_content (chunks : List (List Char)) (cur : List Char) :
    filterNS (if cur.length > 0 then chunks ++ [cur] else chunks).flatten =
      filterNS (chunks.flatten ++ cur) := by
  by_cases h : cur.length > 0
  · rw [if_pos h]
    simp [filterNS_append, List.flatten_append]
  · rw [if_neg h]
    have he : cur = [] := by
      cases hs : cur with
      | nil => rfl
      | cons a t => rw [hs] at h; simp at h
    simp [filterNS_append, he]

theorem wordStep_content (m : Nat) (st : List (List Char) × List Char) (w : List Char) :
    filterNS ((wordStep m st w).1.flatten ++ (wordStep m st w).2) =
      filterNS (st.1.flatten ++ st.2) ++ filterNS w := by
  by_cases h1 : st.2.length + w.length + 1 > m
  · by_cases h2 : st.2.length > 0
    · rw [wordStep_flush m st w h1 h2]
      simp [filterNS_append, List.flatten_append]
    · rw [wordStep_skip m st w h1 h2]
      have he : st.2 = [] := by
        cases hs : st.2 with
        | nil => rfl
        | cons a t => rw [hs] at h2; simp at h2
      simp [filterNS_append, he]
  · rw [wordStep_add m st w h1]
    by_cases h3 : st.2.length > 0
    · rw [if_pos h3]
      simp [filterNS_append, filterNS_space_cons]
    · rw [if_neg h3]
      simp [filterNS_append]

theorem foldl_wordStep_content (m : Nat) (ws : List (List Char)) :
    ∀ st : List (List Char) × List Char,
      filterNS ((ws.foldl (wordStep m) st).1.flatten ++ (ws.foldl (wordStep m) st).2) =
        filterNS (st.1.flatten ++ st.2) ++ filterNS ws.flatten := by
  induction ws with
  | nil => intro st; simp [filterNS_nil]
  | cons w rest ih =>
    intro st
    simp only [List.foldl_cons, List.flatten_cons]
    rw [ih (wordStep m st w), wordStep_content]
    simp [filterNS_append]

theorem chunkStep_content (m : Nat) (st : List (List Char) × List Char) (s0 : List Char) :
    filterNS ((chunkStep m st s0).1.flatten ++ (chunkStep m st s0).2) =
      filterNS (st.1.flatten ++ st.2) ++ filterNS s0 := by
  by_cases h : trimSpace s0 = []
  · rw [chunkStep_skip m st s0 h]
    have hz : filterNS s0 = [] := by rw [← filter_trimSpace, h]; rfl
    simp [hz]
  · by_cases h2 : (trimSpace s0).length > m
    · rw [chunkStep_oversized m st s0 h h2]
      dsimp only
      rw [List.append_nil, finalize_content]
      have hfold := foldl_wordStep_content m (fields (trimSpace s0))
        ((if st.2.length > 0 then st.1 ++ [st.2] else st.1), ([] : List Char))
      dsimp only at hfold
      rw [flatten_fields, filterNS_idem, filter_trimSpace, List.append_nil] at hfold
      rw [hfold, finalize_content st.1 st.2]
    · by_cases h3 : st.2.length + (trimSpace s0).length + 1 > m
      · rw [chunkStep_normal_flush m st s0 h h2 h3]
        dsimp only
        rw [← filter_trimSpace s0]
        simp [filterNS_append, List.flatten_append]
      · rw [chunkStep_normal_noflush m st s0 h h2 h3]
        dsimp only
        rw [← filter_trimSpace s0]
        by_cases h4 : st.2.length > 0
        · rw [if_pos h4]
          simp [filterNS_append, filterNS_space_cons]
        · rw [if_neg h4]
          have he : st.2 = [] := by
            cases hs : st.2 with
            | nil => rfl
            | cons a t => rw [hs] at h4; simp at h4
          simp [filterNS_append, he]

theorem foldl_chunkStep_content (m : Nat) (sents : List (List Char)) :
    ∀ st : List (List Char) × List Char,
      filterNS ((sents.foldl (chunkStep m) st).1.flatten ++ (sents.foldl (chunkStep m) st).2) =
        filterNS (st.1.flatten ++ st.2) ++ filterNS sents.flatten := by
  induction sents with
  | nil => intro st; simp [filterNS_nil]
  | cons s rest ih =>
    intro st
    simp only [List.foldl_cons, List.flatten_cons]
    rw [ih (chunkStep m st s), chunkStep_content]
    simp [filterNS_append]

theorem splitTextIntoChunks_content (text : List Char) (m : Nat) :
    filterNS (splitTextIntoChunks text m).flatten =
      filterNS (splitIntoSentences text).flatten := by
  rw [splitTextIntoChunks_def, finalize_content]
  have hfold := foldl_chunkStep_content m (splitIntoSentences text) ([], [])
  dsimp only at hfold
  rw [hfold]
  simp [filterNS_nil]

/-! ### Chunk building: size bound -/

theorem wordStep_bound (m : Nat) (st : List (List Char) × List Char) (w : List Char)
    (hw : ∀ c ∈ w, isSpace c = false)
    (hch : ∀ ch ∈ st.1, ch.length ≤ m ∨ ∀ c ∈ ch, isSpace c = false)
    (hcur : st.2.length ≤ m ∨ ∀ c ∈ st.2, isSpace c = false) :
    (∀ ch ∈ (wordStep m st w).1, ch.length ≤ m ∨ ∀ c ∈ ch, isSpace c = false) ∧
      ((wordStep m st w).2.length ≤ m ∨ ∀ c ∈ (wordStep m st w).2, isSpace c = false) := by
  by_cases h1 : st.2.length + w.length + 1 > m
  · by_cases h2 : st.2.length > 0
    · rw [wordStep_flush m st w h1 h2]
      refine ⟨?_, Or.inr hw⟩
      intro ch hm
      rcases List.mem_append.mp hm with hm | hm
      · exact hch ch hm
      · rw [List.mem_singleton] at hm
        subst hm
        exact hcur
    · rw [wordStep_skip m st w h1 h2]
      exact ⟨hch, Or.inr hw⟩
  · rw [wordStep_add m st w h1]
    refine ⟨hch, ?_⟩
    by_cases h3 : st.2.length > 0
    · rw [if_pos h3]
      refine Or.inl ?_
      simp only [List.length_append, List.length_cons, List.length_nil]
      omega
    · rw [if_neg h3]
      have he : st.2 = [] := by
        cases hs : st.2 with
        | nil => rfl
        | cons a t => rw [hs] at h3; simp at h3
      rw [he]
      exact Or.inr (by simpa using hw)

theorem foldl_wordStep_bound (m : Nat) (ws : List (List Char))
    (hws : ∀ w ∈ ws, ∀ c ∈ w, isSpace c = false) :
    ∀ st : List (List Char) × List Char,
      (∀ ch ∈ st.1, ch.length ≤ m ∨ ∀ c ∈ ch, isSpace c = false) →
      (st.2.length ≤ m ∨ ∀ c ∈ st.2, isSpace c = false) →
      (∀ ch ∈ (ws.foldl (wordStep m) st).1, ch.length ≤ m ∨ ∀ c ∈ ch, isSpace c = false) ∧
        ((ws.foldl (wordStep m) st).2.length ≤ m ∨
          ∀ c ∈ (ws.foldl (wordStep m) st).2, isSpace c = false) := by
  induction ws with
  | nil => intro st h1 h2; exact ⟨h1, h2⟩
  | cons w rest ih =>
    intro st h1 h2
    simp only [List.foldl_cons]
    have hstep := wordStep_bound m st w (hws w (by simp)) h1 h2
    exact ih (fun w2 hw2 => hws w2 (by simp [hw2])) (wordStep m st w) hstep.1 hstep.2

theorem chunkStep_bound (m : Nat) (st : List (List Char) × List Char) (s0 : List Char)
    (hch : ∀ ch ∈ st.1, ch.length ≤ m ∨ ∀ c ∈ ch, isSpace c = false)
    (hcur : st.2.length ≤ m) :
    (∀ ch ∈ (chunkStep m st s0).1, ch.length ≤ m ∨ ∀ c ∈ ch, isSpace c = false) ∧
      (chunkStep m st s0).2.length ≤ m := by
  have hfin : ∀ ch ∈ (if st.2.length > 0 then st.1 ++ [st.2] else st.1),
      ch.length ≤ m ∨ ∀ c ∈ ch, isSpace c = false := by
    intro ch hm
    by_cases h4 : st.2.length > 0
    · rw [if_pos h4] at hm
      rcases List.mem_append.mp hm with hm | hm
      · exact hch ch hm
      · rw [List.mem_singleton] at hm
        subst hm
        exact Or.inl hcur
    · rw [if_neg h4] at hm
      exact hch ch hm
  by_cases h : trimSpace s0 = []
  · rw [chunkStep_skip m st s0 h]
    exact ⟨hch, hcur⟩
  · by_cases h2 : (trimSpace s0).length > m
    · rw [chunkStep_oversized m st s0 h h2]
      dsimp only
      have hws : ∀ w ∈ fields (trimSpace s0), ∀ c ∈ w, isSpace c = false :=
        fun w hw => fields_no_space hw
      have hfold := foldl_wordStep_bound m (fields (trimSpace s0)) hws
        ((if st.2.length > 0 then st.1 ++ [st.2] else st.1), ([] : List Char)) hfin
        (Or.inl (by simp))
      refine ⟨?_, by simp⟩
      intro ch hm
      by_cases h4 : ((fields (trimSpace s0)).foldl (wordStep m)
          ((if st.2.length > 0 then st.1 ++ [st.2] else st.1), ([] : List Char))).2.length > 0
      · rw [if_pos h4] at hm
        rcases List.mem_append.mp hm with hm | hm
        · exact hfold.1 ch hm
        · rw [List.mem_singleton] at hm
          subst hm
          exact hfold.2
      · rw [if_neg h4] at hm
        exact hfold.1 ch hm
    · by_cases h3 : st.2.length + (trimSpace s0).length + 1 > m
      · rw [chunkStep_normal_flush m st s0 h h2 h3]
        dsimp only
        refine ⟨?_, by omega⟩
        intro ch hm
        rcases List.mem_append.mp hm with hm | hm
        · exact hch ch hm
        · rw [List.mem_singleton] at hm
          subst hm
          exact Or.inl hcur
      · rw [chunkStep_normal_noflush m st s0 h h2 h3]
        dsimp only
        refine ⟨hch, ?_⟩
        by_cases h4 : st.2.length > 0
        · rw [if_pos h4]
          simp only [List.length_append, List.length_cons, List.length_nil]
          omega
        · rw [if_neg h4]
          have he : st.2 = [] := by
            cases hs : st.2 with
            | nil => rfl
            | cons a t => rw [hs] at h4; simp at h4
          rw [he]
          simpa using by omega

theorem foldl_chunkStep_bound (m : Nat) (sents : List (List Char)) :
    ∀ st : List (List Char) × List Char,
      (∀ ch ∈ st.1, ch.length ≤ m ∨ ∀ c ∈ ch, isSpace c = false) →
      st.2.length ≤ m →
      (∀ ch ∈ (sents.foldl (chunkStep m) st).1, ch.length ≤ m ∨ ∀ c ∈ ch, isSpace c = false) ∧
        (sents.foldl (chunkStep m) st).2.length ≤ m := by
  induction sents with
  | nil => intro st h1 h2; exact ⟨h1, h2⟩
  | cons s rest ih =>
    intro st h1 h2
    simp only [List.foldl_cons]
    have hstep := chunkStep_bound m st s h1 h2
    exact ih (chunkStep m st s) hstep.1 hstep.2

theorem splitTextIntoChunks_bound (text : List Char) (m : Nat) :
    ∀ ch ∈ splitTextIntoChunks text m, ch.length ≤ m ∨ ∀ c ∈ ch, isSpace c = false := by
  intro ch hm
  rw [splitTextIntoChunks_def] at hm
  have hfold := foldl_chunkStep_bound m (splitIntoSentences text) ([], [])
    (by simp) (by simp)
  by_cases h4 : ((splitIntoSentences text).foldl (chunkStep m) ([], [])).2.length > 0
  · rw [if_pos h4] at hm
    rcases List.mem_append.mp hm with hm | hm
    · exact hfold.1 ch hm
    · rw [List.mem_singleton] at hm
      subst hm
      exact Or.inl hfold.2
  · rw [if_neg h4] at hm
    exact hfold.1 ch hm

/-! ### Chunk building: sentinel freedom -/

theorem marker_nonspace : ∀ c ∈ sepMarker, isSpace c = false := by decide

theorem mf_nil : containsSub [] sepMarker = false := rfl

theorem mf_join_space {a b : List Char} (ha : containsSub a sepMarker = false)
    (hb : containsSub b sepMarker = false) :
    containsSub (a ++ ' ' :: b) sepMarker = false :=
  spaceBreak marker_nonspace a b ha hb

theorem wordStep_mf (m : Nat) (st : List (List Char) × List Char) (w : List Char)
    (hw : containsSub w sepMarker = false)
    (hch : ∀ ch ∈ st.1, containsSub ch sepMarker = false)
    (hcur : containsSub st.2 sepMarker = false) :
    (∀ ch ∈ (wordStep m st w).1, containsSub ch sepMarker = false) ∧
      containsSub (wordStep m st w).2 sepMarker = false := by
  by_cases h1 : st.2.length + w.length + 1 > m
  · by_cases h2 : st.2.length > 0
    · rw [wordStep_flush m st w h1 h2]
      refine ⟨?_, hw⟩
      intro ch hm
      rcases List.mem_append.mp hm with hm | hm
      · exact hch ch hm
      · rw [List.mem_singleton] at hm
        subst hm
        exact hcur
    · rw [wordStep_skip m st w h1 h2]
      exact ⟨hch, hw⟩
  · rw [wordStep_add m st w h1]
    refine ⟨hch, ?_⟩
    by_cases h3 : st.2.length > 0
    · rw [if_pos h3]
      have : (st.2 ++ [' ']) ++ w = st.2 ++ ' ' :: w := by simp
      rw [this]
      exact mf_join_space hcur hw
    · rw [if_neg h3]
      have he : st.2 = [] := by
        cases hs : st.2 with
        | nil => rfl
        | cons a t => rw [hs] at h3; simp at h3
      rw [he]
      simpa using hw

theorem foldl_wordStep_mf (m : Nat) (ws : List (List Char))
    (hws : ∀ w ∈ ws, containsSub w sepMarker = false) :
    ∀ st : List (List Char) × List Char,
      (∀ ch ∈ st.1, containsSub ch sepMarker = false) →
      containsSub st.2 sepMarker = false →
      (∀ ch ∈ (ws.foldl (wordStep m) st).1, containsSub ch sepMarker = false) ∧
        containsSub (ws.foldl (wordStep m) st).2 sepMarker = false := by
  induction ws with
  | nil => intro st h1 h2; exact ⟨h1, h2⟩
  | cons w rest ih =>
    intro st h1 h2
    simp only [List.foldl_cons]
    have hstep := wordStep_mf m st w (hws w (by simp)) h1 h2
    exact ih (fun w2 hw2 => hws w2 (by simp [hw2])) (wordStep m st w) hstep.1 hstep.2

theorem trimSpace_mf {s : List Char} (hs : containsSub s sepMarker = false) :
    containsSub (trimSpace s) sepMarker = false := by
  obtain ⟨a, b, hab⟩ := trimSpace_mid s
  exact mf_of_mid (by rw [← hab]; exact hs)

theorem chunkStep_mf (m : Nat) (st : List (List Char) × List Char) (s0 : List Char)
    (hs0 : containsSub s0 sepMarker = false)
    (hch : ∀ ch ∈ st.1, containsSub ch sepMarker = false)
    (hcur : containsSub st.2 sepMarker = false) :
    (∀ ch ∈ (chunkStep m st s0).1, containsSub ch sepMarker = false) ∧
      containsSub (chunkStep m st s0).2 sepMarker = false := by
  have hs : containsSub (trimSpace s0) sepMarker = false := trimSpace_mf hs0
  have hfin : ∀ ch ∈ (if st.2.length > 0 then st.1 ++ [st.2] else st.1),
      containsSub ch sepMarker = false := by
    intro ch hm
    by_cases h4 : st.2.length > 0
    · rw [if_pos h4] at hm
      rcases List.mem_append.mp hm with hm | hm
      · exact hch ch hm
      · rw [List.mem_singleton] at hm
        subst hm
        exact hcur
    · rw [if_neg h4] at hm
      exact hch ch hm
  by_cases h : trimSpace s0 = []
  · rw [chunkStep_skip m st s0 h]
    exact ⟨hch, hcur⟩
  · by_cases h2 : (trimSpace s0).length > m
    · rw [chunkStep_oversized m st s0 h h2]
      dsimp only
      have hws : ∀ w ∈ fields (trimSpace s0), containsSub w sepMarker = false := by
        intro w hw
        obtain ⟨a, b, hab⟩ := fields_mid hw
        exact mf_of_mid (by rw [← hab]; exact hs)
      have hfold := foldl_wordStep_mf m (fields (trimSpace s0)) hws
        ((if st.2.length > 0 then st.1 ++ [st.2] else st.1), ([] : List Char)) hfin mf_nil
      refine ⟨?_, mf_nil⟩
      intro ch hm
      by_cases h4 : ((fields (trimSpace s0)).foldl (wordStep m)
          ((if st.2.length > 0 then st.1 ++ [st.2] else st.1), ([] : List Char))).2.length > 0
      · rw [if_pos h4] at hm
        rcases List.mem_append.mp hm with hm | hm
        · exact hfold.1 ch hm
        · rw [List.mem_singleton] at hm
          subst hm
          exact hfold.2
      · rw [if_neg h4] at hm
        exact hfold.1 ch hm
    · by_cases h3 : st.2.length + (trimSpace s0).length + 1 > m
      · rw [chunkStep_normal_flush m st s0 h h2 h3]
        dsimp only
        refine ⟨?_, hs⟩
        intro ch hm
        rcases List.mem_append.mp hm with hm | hm
        · exact hch ch hm
        · rw [List.mem_singleton] at hm
          subst hm
          exact hcur
      · rw [chunkStep_normal_noflush m st s0 h h2 h3]
        dsimp only
        refine ⟨hch, ?_⟩
        by_cases h4 : st.2.length > 0
        · rw [if_pos h4]
          have : (st.2 ++ [' ']) ++ trimSpace s0 = st.2 ++ ' ' :: trimSpace s0 := by simp
          rw [this]
          exact mf_join_space hcur hs
        · rw [if_neg h4]
          have he : st.2 = [] := by
            cases hs2 : st.2 with
            | nil => rfl
            | cons a t => rw [hs2] at h4; simp at h4
          rw [he]
          simpa using hs

theorem foldl_chunkStep_mf (m : Nat) (sents : List (List Char))
    (hsents : ∀ s ∈ sents, containsSub s sepMarker = false) :
    ∀ st : List (List Char) × List Char,
      (∀ ch ∈ st.1, containsSub ch sepMarker = false) →
      containsSub st.2 sepMarker = false →
      (∀ ch ∈ (sents.foldl (chunkStep m) st).1, containsSub ch sepMarker = false) ∧
        containsSub (sents.foldl (chunkStep m) st).2 sepMarker = false := by
  induction sents with
  | nil => intro st h1 h2; exact ⟨h1, h2⟩
  | cons s rest ih =>
    intro st h1 h2
    simp only [List.foldl_cons]
    have hstep := chunkStep_mf m st s (hsents s (by simp)) h1 h2
    exact ih (fun s2 hs2 => hsents s2 (by simp [hs2])) (chunkStep m st s) hstep.1 hstep.2

theorem splitTextIntoChunks_mf {text : List Char} (m : Nat)
    (hmf : containsSub text sepMarker = false) :
    ∀ ch ∈ splitTextIntoChunks text m, containsSub ch sepMarker = false := by
  intro ch hm
  rw [splitTextIntoChunks_def] at hm
  have hfold := foldl_chunkStep_mf m (splitIntoSentences text) (sentences_mf hmf) ([], [])
    (by simp) mf_nil
  by_cases h4 : ((splitIntoSentences text).foldl (chunkStep m) ([], [])).2.length > 0
  · rw [if_pos h4] at hm
    rcases List.mem_append.mp hm with hm | hm
    · exact hfold.1 ch hm
    · rw [List.mem_singleton] at hm
      subst hm
      exact hfold.2
  · rw [if_neg h4] at hm
    exact hfold.1 ch hm

/-! ### Space-joined chunks -/

theorem joinSp_cons2 (c d : List Char) (r : List (List Char)) :
    joinSp (c :: d :: r) = c ++ ' ' :: joinSp (d :: r) := rfl

theorem joinSp_mf {l : List (List Char)} (hl : ∀ ch ∈ l, containsSub ch sepMarker = false) :
    containsSub (joinSp l) sepMarker = false := by
  induction l with
  | nil => exact mf_nil
  | cons c rest ih =>
    cases rest with
    | nil => exact hl c (by simp)
    | cons d r2 =>
      rw [joinSp_cons2]
      exact mf_join_space (hl c (by simp)) (ih (fun ch hch => hl ch (by simp [hch])))

theorem filterNS_joinSp (l : List (List Char)) :
    filterNS (joinSp l) = filterNS l.flatten := by
  induction l with
  | nil => rfl
  | cons c rest ih =>
    cases rest with
    | nil => simp [joinSp]
    | cons d r2 =>
      rw [joinSp_cons2, List.flatten_cons, filterNS_append, filterNS_space_cons, ih,
        filterNS_append]

theorem filter_sep_filterNS (s : List Char) :
    (filterNS s).filter sepChar = s.filter sepChar := by
  unfold filterNS
  rw [List.filter_filter]
  refine List.filter_congr ?_
  intro c _
  by_cases hs : sepChar c = true
  · rw [hs, sepChar_not_space hs]
    rfl
  · have h2 : sepChar c = false := by revert hs; cases sepChar c <;> simp
    rw [h2]
    rfl

/-! ### List slot helpers -/

theorem getD_set_self {α : Type} (l : List α) (i : Nat) (v d : α) (h : i < l.length) :
    (l.set i v).getD i d = v := by
  induction l generalizing i with
  | nil => simp at h
  | cons a t ih =>
    cases i with
    | zero => rfl
    | succ n => simpa using ih n (by simpa using h)

theorem getD_set_ne {α : Type} (l : List α) {i j : Nat} (v d : α) (h : i ≠ j) :
    (l.set i v).getD j d = l.getD j d := by
  induction l generalizing i j with
  | nil => rfl
  | cons a t ih =>
    cases i with
    | zero =>
      cases j with
      | zero => exact absurd rfl h
      | succ n => rfl
    | succ m2 =>
      cases j with
      | zero => rfl
      | succ n =>
        have : (a :: t).set (m2 + 1) v = a :: t.set m2 v := rfl
        rw [this]
        simpa using ih (i := m2) (j := n) (fun he => h (by rw [he]))

theorem listEq_of_getD {α : Type} (d : α) :
    ∀ l1 l2 : List α, l1.length = l2.length →
      (∀ j, j < l1.length → l1.getD j d = l2.getD j d) → l1 = l2 := by
  intro l1
  induction l1 with
  | nil =>
    intro l2 h _
    cases l2 with
    | nil => rfl
    | cons b u => simp at h
  | cons a t ih =>
    intro l2 hlen hget
    cases l2 with
    | nil => simp at hlen
    | cons b u =>
      have h0 := hget 0 (by simp)
      simp only [List.getD_cons_zero] at h0
      have ht := ih u (by simpa using hlen)
        (fun j hj => by simpa using hget (j + 1) (by simpa using hj))
      rw [h0, ht]

theorem getD_map_range (f : Nat → String) (n j : Nat) (h : j < n) :
    ((List.range n).map f).getD j "" = f j := by
  rw [List.getD_eq_getElem ((List.range n).map f) "" (by simpa using h)]
  simp

/-! ### Scheduler lemmas -/

theorem taskStep_match (chunks : List String) (voice tmpDir : String)
    (synth : String → String → String → Option String) (st : SchedSt) (index : Nat) :
    taskStep chunks voice tmpDir synth st index =
      (match synth (chunks.getD index "") voice (chunkFileName tmpDir index) with
       | some cause =>
         (⟨st.audioFiles, st.errs ++ [(index + 1, cause)],
           st.calls ++ [(index, chunks.getD index "", chunkFileName tmpDir index)]⟩ : SchedSt)
       | none =>
         ⟨st.audioFiles.set index (chunkFileName tmpDir index), st.errs,
           st.calls ++ [(index, chunks.getD index "", chunkFileName tmpDir index)]⟩) := rfl

theorem taskStep_fail (chunks : List String) (voice tmpDir : String)
    (synth : String → String → String → Option String) (st : SchedSt) (index : Nat)
    {cause : String}
    (h : synth (chunks.getD index "") voice (chunkFileName tmpDir index) = some cause) :
    taskStep chunks voice tmpDir synth st index =
      ⟨st.audioFiles, st.errs ++ [(index + 1, cause)],
        st.calls ++ [(index, chunks.getD index "", chunkFileName tmpDir index)]⟩ := by
  rw [taskStep_match, h]

theorem taskStep_ok (chunks : List String) (voice tmpDir : String)
    (synth : String → String → String → Option String) (st : SchedSt) (index : Nat)
    (h : synth (chunks.getD index "") voice (chunkFileName tmpDir index) = none) :
    taskStep chunks voice tmpDir synth st index =
      ⟨st.audioFiles.set index (chunkFileName tmpDir index), st.errs,
        st.calls ++ [(index, chunks.getD index "", chunkFileName tmpDir index)]⟩ := by
  rw [taskStep_match, h]

theorem synthFails_of_some (chunks : List String) (voice tmpDir : String)
    (synth : String → String → String → Option String) (i : Nat) {c : String}
    (h : synth (chunks.getD i "") voice (chunkFileName tmpDir i) = some c) :
    synthFails chunks voice tmpDir synth i = true := by
  unfold synthFails
  rw [h]
  rfl

theorem synthFails_of_none (chunks : List String) (voice tmpDir : String)
    (synth : String → String → String → Option String) (i : Nat)
    (h : synth (chunks.getD i "") voice (chunkFileName tmpDir i) = none) :
    synthFails chunks voice tmpDir synth i = false := by
  unfold synthFails
  rw [h]
  rfl

theorem tagErr_of_some (chunks : List String) (voice tmpDir : String)
    (synth : String → String → String → Option String) (i : Nat) {c : String}
    (h : synth (chunks.getD i "") voice (chunkFileName tmpDir i) = some c) :
    tagErr chunks voice tmpDir synth i = (i + 1, c) := by
  unfold tagErr
  rw [h]
  rfl

theorem sched_errs (chunks : List String) (voice tmpDir : String)
    (synth : String → String → String → Option String) (order : List Nat) :
    ∀ st : SchedSt,
      (order.foldl (taskStep chunks voice tmpDir synth) st).errs =
        st.errs ++ ((order.filter (synthFails chunks voice tmpDir synth)).map
          (tagErr chunks voice tmpDir synth)) := by
  induction order with
  | nil => intro st; simp
  | cons i rest ih =>
    intro st
    simp only [List.foldl_cons]
    rw [ih]
    cases hsy : synth (chunks.getD i "") voice (chunkFileName tmpDir i) with
    | none =>
      rw [taskStep_ok chunks voice tmpDir synth st i hsy]
      have hf := synthFails_of_none chunks voice tmpDir synth i hsy
      rw [List.filter_cons_of_neg (by simp [hf])]
    | some c =>
      rw [taskStep_fail chunks voice tmpDir synth st i hsy]
      have hf := synthFails_of_some chunks voice tmpDir synth i hsy
      rw [List.filter_cons_of_pos hf]
      rw [List.map_cons, tagErr_of_some chunks voice tmpDir synth i hsy]
      simp

theorem sched_calls (chunks : List String) (voice tmpDir : String)
    (synth : String → String → String → Option String) (order : List Nat) :
    ∀ st : SchedSt,
      (order.foldl (taskStep chunks voice tmpDir synth) st).calls =
        st.calls ++ order.map
          (fun i => (i, chunks.getD i "", chunkFileName tmpDir i)) := by
  induction order with
  | nil => intro st; simp
  | cons i rest ih =>
    intro st
    simp only [List.foldl_cons]
    rw [ih]
    cases hsy : synth (chunks.getD i "") voice (chunkFileName tmpDir i) with
    | none =>
      rw [taskStep_ok chunks voice tmpDir synth st i hsy]
      simp
    | some c =>
      rw [taskStep_fail chunks voice tmpDir synth st i hsy]
      simp

theorem sched_len (chunks : List String) (voice tmpDir : String)
    (synth : String → String → String → Option String) (order : List Nat) :
    ∀ st : SchedSt,
      (order.foldl (taskStep chunks voice tmpDir synth) st).audioFiles.length =
        st.audioFiles.length := by
  induction order with
  | nil => intro st; rfl
  | cons i rest ih =>
    intro st
    simp only [List.foldl_cons]
    rw [ih]
    cases hsy : synth (chunks.getD i "") voice (chunkFileName tmpDir i) with
    | none =>
      rw [taskStep_ok chunks voice tmpDir synth st i hsy]
      simp
    | some c =>
      rw [taskStep_fail chunks voice tmpDir synth st i hsy]

theorem sched_getD (chunks : List String) (voice tmpDir : String)
    (synth : String → String → String → Option String) (order : List Nat) :
    ∀ st : SchedSt, (∀ i ∈ order, i < st.audioFiles.length) → ∀ j,
      (order.foldl (taskStep chunks voice tmpDir synth) st).audioFiles.getD j "" =
        if j ∈ order ∧ synthFails chunks voice tmpDir synth j = false then
          chunkFileName tmpDir j
        else st.audioFiles.getD j "" := by
  induction order with
  | nil =>
    intro st _ j
    simp
  | cons i rest ih =>
    intro st horder j
    simp only [List.foldl_cons]
    have hiff : ∀ (hji : ¬j = i),
        (j ∈ rest ∧ synthFails chunks voice tmpDir synth j = false) ↔
          (j ∈ i :: rest ∧ synthFails chunks voice tmpDir synth j = false) := by
      intro hji
      constructor
      · rintro ⟨hm, hf⟩
        exact ⟨List.mem_cons_of_mem i hm, hf⟩
      · rintro ⟨hm, hf⟩
        rcases List.mem_cons.mp hm with hm | hm
        · exact absurd hm hji
        · exact ⟨hm, hf⟩
    cases hsy : synth (chunks.getD i "") voice (chunkFileName tmpDir i) with
    | some c =>
      rw [taskStep_fail chunks voice tmpDir synth st i hsy]
      have hstep := ih ⟨st.audioFiles, st.errs ++ [(i + 1, c)],
          st.calls ++ [(i, chunks.getD i "", chunkFileName tmpDir i)]⟩
        (fun k hk => horder k (by simp [hk])) j
      dsimp only at hstep
      rw [hstep]
      have hfi := synthFails_of_some chunks voice tmpDir synth i hsy
      by_cases hji : j = i
      · subst hji
        rw [if_neg (by intro hc; rw [hfi] at hc; simp at hc),
          if_neg (by intro hc; rw [hfi] at hc; simp at hc)]
      · exact if_congr (hiff hji) rfl rfl
    | none =>
      rw [taskStep_ok chunks voice tmpDir synth st i hsy]
      have hstep := ih ⟨st.audioFiles.set i (chunkFileName tmpDir i), st.errs,
          st.calls ++ [(i, chunks.getD i "", chunkFileName tmpDir i)]⟩
        (fun k hk => by
          have := horder k (by simp [hk])
          simpa using this) j
      dsimp only at hstep
      rw [hstep]
      have hfi := synthFails_of_none chunks voice tmpDir synth i hsy
      by_cases hji : j = i
      · subst hji
        have hset := getD_set_self st.audioFiles j (chunkFileName tmpDir j) ""
          (horder j (by simp))
        by_cases hjr : j ∈ rest
        · rw [if_pos ⟨hjr, hfi⟩, if_pos ⟨by simp, hfi⟩]
        · rw [if_neg (fun hc => hjr hc.1), if_pos ⟨by simp, hfi⟩]
          exact hset
      · have hset := getD_set_ne st.audioFiles (chunkFileName tmpDir i) ""
          (fun he => hji he.symm)
        rw [hset]
        exact if_congr (hiff hji) rfl rfl

theorem find?_of_filter_cons {p : Nat → Bool} {l : List Nat} {k : Nat} {t : List Nat}
    (h : l.filter p = k :: t) : l.find? p = some k := by
  induction l with
  | nil => simp at h
  | cons a r ih =>
    by_cases ha : p a = true
    · rw [List.filter_cons_of_pos ha] at h
      injection h with h1 h2
      rw [List.find?_cons_of_pos _ ha, h1]
    · have ha2 : p a = false := by revert ha; cases p a <;> simp
      rw [List.filter_cons_of_neg (by simp [ha2])] at h
      rw [List.find?_cons_of_neg _ (by simp [ha2])]
      exact ih h

/-! ### Semaphore invariant lemmas -/

theorem runningCount_set_running (s : List TaskPhase) (i : Nat) :
    runningCount (s.set i TaskPhase.running) ≤ runningCount s + 1 := by
  induction s generalizing i with
  | nil => simp [runningCount]
  | cons a t ih =>
    cases i with
    | zero =>
      simp only [List.set, runningCount, List.countP_cons]
      have := ih 0
      cases a <;> simp <;> omega
    | succ n =>
      simp only [List.set, runningCount, List.countP_cons]
      have := ih n
      simp only [runningCount] at this
      omega

theorem runningCount_set_done (s : List TaskPhase) (i : Nat) :
    runningCount (s.set i TaskPhase.done) ≤ runningCount s := by
  induction s generalizing i with
  | nil => simp [runningCount]
  | cons a t ih =>
    cases i with
    | zero =>
      simp only [List.set, runningCount, List.countP_cons]
      cases a <;> simp
    | succ n =>
      simp only [List.set, runningCount, List.countP_cons]
      have := ih n
      simp only [runningCount] at this
      omega

theorem runningCount_replicate_waiting (n : Nat) :
    runningCount (List.replicate n TaskPhase.waiting) = 0 := by
  induction n with
  | zero => rfl
  | succ k ih =>
    simp only [List.replicate, runningCount, List.countP_cons] at ih ⊢
    simpa using ih

theorem semStep_bound {s t : List TaskPhase} (h : SemStep s t) (hs : runningCount s ≤ 5) :
    runningCount t ≤ 5 := by
  cases h with
  | start i hw hcap =>
    have := runningCount_set_running s i
    omega
  | finish i hr =>
    have := runningCount_set_done s i
    omega

/-! ### Claim theorems -/

theorem generateTTSAudioParallel_match (chunks : List String) (voice tmpDir : String)
    (synth : String → String → String → Option String) (order : List Nat) :
    generateTTSAudioParallel chunks voice tmpDir synth order =
      (match (order.foldl (taskStep chunks voice tmpDir synth) (schedInit chunks)).errs with
       | [] =>
         (⟨some (order.foldl (taskStep chunks voice tmpDir synth) (schedInit chunks)).audioFiles,
           none,
           (order.foldl (taskStep chunks voice tmpDir synth) (schedInit chunks)).calls⟩ :
             SchedResult)
       | e :: _ =>
         ⟨none, some e,
           (order.foldl (taskStep chunks voice tmpDir synth) (schedInit chunks)).calls⟩) := rfl

/-- C1 (amended): for every `maxSize > 0` and every text that does not contain
the internal sentinel `"|SEP|"` as a substring, the concatenation of the
chunks returned by `splitTextIntoChunks`, with all whitespace removed,
equals the input text with all whitespace removed: every non-whitespace
character is preserved in order, none lost, duplicated or reordered. -/
theorem C1_coverage (text : List Char) (maxSize : Nat) (hpos : 0 < maxSize)
    (hmf : containsSub text sepMarker = false) :
    filterNS (splitTextIntoChunks text maxSize).flatten = filterNS text := by
  rw [splitTextIntoChunks_content, sentences_content hmf]

/-- C1 counterexample: the claim fails as stated for all texts: on the input
`"|SEP|"` (which contains the internal sentinel) the pipeline drops all five
non-whitespace characters. -/
theorem C1_counterexample :
    filterNS (splitTextIntoChunks ("|SEP|".toList) 10).flatten ≠
      filterNS ("|SEP|".toList) := by
  decide

theorem C1_witness :
    0 < 3 ∧ containsSub ("a.".toList) sepMarker = false ∧
      filterNS (splitTextIntoChunks ("a.".toList) 3).flatten = filterNS ("a.".toList) :=
  ⟨by decide, by decide, C1_coverage ("a.".toList) 3 (by decide) (by decide)⟩

/-- C2: for every chunk list and every completion order of the per-chunk
tasks, if the run reports no error then `generateTTSAudioParallel` returns
the slice whose element at index `i` is the path `chunk_<i+1>.mp3` in the
run's temporary directory: slot `i` is fixed by the chunk index at dispatch,
never by completion time. -/
theorem C2_result_order (chunks : List String) (voice tmpDir : String)
    (synth : String → String → String → Option String) (order : List Nat)
    (hperm : order.Perm (List.range chunks.length))
    (hok : (generateTTSAudioParallel chunks voice tmpDir synth order).firstErr = none) :
    (generateTTSAudioParallel chunks voice tmpDir synth order).audioFiles =
      some ((List.range chunks.length).map (chunkFileName tmpDir)) := by
  have herrs := sched_errs chunks voice tmpDir synth order (schedInit chunks)
  rw [show (schedInit chunks).errs = [] from rfl, List.nil_append] at herrs
  cases hfil : (order.filter (synthFails chunks voice tmpDir synth)) with
  | cons k t =>
    rw [hfil, List.map_cons] at herrs
    rw [generateTTSAudioParallel_match, herrs] at hok
    simp at hok
  | nil =>
    rw [hfil, List.map_nil] at herrs
    have hall : ∀ i ∈ order, synthFails chunks voice tmpDir synth i = false := by
      intro i hi
      have := List.filter_eq_nil_iff.mp hfil i hi
      revert this
      cases synthFails chunks voice tmpDir synth i <;> simp
    rw [generateTTSAudioParallel_match, herrs]
    dsimp only
    have hlen : (order.foldl (taskStep chunks voice tmpDir synth)
        (schedInit chunks)).audioFiles.length = chunks.length := by
      rw [sched_len]
      simp [schedInit]
    have hmem : ∀ i, i ∈ order ↔ i < chunks.length := by
      intro i
      rw [hperm.mem_iff, List.mem_range]
    have hgd := sched_getD chunks voice tmpDir synth order (schedInit chunks)
      (fun i hi => by
        simp only [schedInit, List.length_replicate]
        exact (hmem i).mp hi)
    have heq : (order.foldl (taskStep chunks voice tmpDir synth)
        (schedInit chunks)).audioFiles =
        (List.range chunks.length).map (chunkFileName tmpDir) := by
      refine listEq_of_getD "" _ _ ?_ ?_
      · rw [hlen]
        simp
      · intro j hj
        rw [hlen] at hj
        rw [hgd j, getD_map_range _ _ _ hj, if_pos ⟨(hmem j).mpr hj, hall j ((hmem j).mpr hj)⟩]
    rw [heq]

theorem C2_witness :
    [0].Perm (List.range (["hello"] : List String).length) ∧
    (generateTTSAudioParallel ["hello"] "nova" "tmp" (fun _ _ _ => none) [0]).firstErr = none ∧
    (generateTTSAudioParallel ["hello"] "nova" "tmp" (fun _ _ _ => none) [0]).audioFiles =
      some ((List.range (["hello"] : List String).length).map (chunkFileName "tmp")) :=
  ⟨List.Perm.refl _, rfl,
    C2_result_order ["hello"] "nova" "tmp" (fun _ _ _ => none) [0] (List.Perm.refl _) rfl⟩

/-- C3: for every completion order, if the synthesis call of some chunk
fails then `generateTTSAudioParallel` still performs the synthesis call of
every chunk (the call trace covers the whole order, i.e. the scheduler
drains all tasks), returns no artifact list, and surfaces the first failure
in completion order, tagged `chunk index + 1` with its cause. -/
theorem C3_failure_containment (chunks : List String) (voice tmpDir : String)
    (synth : String → String → String → Option String) (order : List Nat)
    (hperm : order.Perm (List.range chunks.length))
    (j : Nat) (hj : j ∈ order) (hjf : synthFails chunks voice tmpDir synth j = true) :
    (generateTTSAudioParallel chunks voice tmpDir synth order).audioFiles = none ∧
    (generateTTSAudioParallel chunks voice tmpDir synth order).calls =
      order.map (fun i => (i, chunks.getD i "", chunkFileName tmpDir i)) ∧
    (∀ i, i < chunks.length →
      (i, chunks.getD i "", chunkFileName tmpDir i) ∈
        (generateTTSAudioParallel chunks voice tmpDir synth order).calls) ∧
    ∃ k cause,
      (generateTTSAudioParallel chunks voice tmpDir synth order).firstErr =
          some (k + 1, cause) ∧
        k < chunks.length ∧
        synth (chunks.getD k "") voice (chunkFileName tmpDir k) = some cause ∧
        order.find? (synthFails chunks voice tmpDir synth) = some k := by
  have herrs := sched_errs chunks voice tmpDir synth order (schedInit chunks)
  have hcalls := sched_calls chunks voice tmpDir synth order (schedInit chunks)
  rw [show (schedInit chunks).errs = [] from rfl, List.nil_append] at herrs
  rw [show (schedInit chunks).calls = [] from rfl, List.nil_append] at hcalls
  cases hfil : (order.filter (synthFails chunks voice tmpDir synth)) with
  | nil =>
    have := List.filter_eq_nil_iff.mp hfil j hj
    rw [hjf] at this
    simp at this
  | cons k t =>
    rw [hfil, List.map_cons] at herrs
    have hgen := generateTTSAudioParallel_match chunks voice tmpDir synth order
    rw [herrs] at hgen
    have hkord : k ∈ order := by
      have : k ∈ order.filter (synthFails chunks voice tmpDir synth) := by
        rw [hfil]
        simp
      exact List.mem_of_mem_filter this
    have hkf : synthFails chunks voice tmpDir synth k = true := by
      have : k ∈ order.filter (synthFails chunks voice tmpDir synth) := by
        rw [hfil]
        simp
      exact List.of_mem_filter this
    obtain ⟨cause, hcause⟩ : ∃ c,
        synth (chunks.getD k "") voice (chunkFileName tmpDir k) = some c := by
      unfold synthFails at hkf
      cases hs : synth (chunks.getD k "") voice (chunkFileName tmpDir k) with
      | none => rw [hs] at hkf; simp at hkf
      | some c => exact ⟨c, rfl⟩
    refine ⟨by rw [hgen], ?_, ?_, k, cause, ?_, ?_, hcause, find?_of_filter_cons hfil⟩
    · rw [hgen]
      exact hcalls
    · intro i hi
      rw [hgen]
      dsimp only
      rw [hcalls]
      have : i ∈ order := hperm.mem_iff.mpr (List.mem_range.mpr hi)
      exact List.mem_map_of_mem _ this
    · rw [hgen]
      dsimp only
      rw [tagErr_of_some chunks voice tmpDir synth k hcause]
    · exact List.mem_range.mp (hperm.mem_iff.mp hkord)

theorem C3_witness :
    (1 ∈ [0, 1] ∧
      synthFails ["a", "b"] "v" "t"
        (fun s _ _ => if s = "b" then some "boom" else none) 1 = true) ∧
    ((generateTTSAudioParallel ["a", "b"] "v" "t"
        (fun s _ _ => if s = "b" then some "boom" else none) [0, 1]).audioFiles = none ∧
    (generateTTSAudioParallel ["a", "b"] "v" "t"
        (fun s _ _ => if s = "b" then some "boom" else none) [0, 1]).calls =
      [0, 1].map (fun i => (i, (["a", "b"] : List String).getD i "", chunkFileName "t" i)) ∧
    (∀ i, i < (["a", "b"] : List String).length →
      (i, (["a", "b"] : List String).getD i "", chunkFileName "t" i) ∈
        (generateTTSAudioParallel ["a", "b"] "v" "t"
          (fun s _ _ => if s = "b" then some "boom" else none) [0, 1]).calls) ∧
    ∃ k cause,
      (generateTTSAudioParallel ["a", "b"] "v" "t"
          (fun s _ _ => if s = "b" then some "boom" else none) [0, 1]).firstErr =
          some (k + 1, cause) ∧
        k < (["a", "b"] : List String).length ∧
        (fun s _ _ => if s = "b" then some "boom" else none)
            ((["a", "b"] : List String).getD k "") "v" (chunkFileName "t" k) = some cause ∧
        [0, 1].find? (synthFails ["a", "b"] "v" "t"
          (fun s _ _ => if s = "b" then some "boom" else none)) = some k) :=
  ⟨⟨by decide, by decide⟩,
    C3_failure_containment ["a", "b"] "v" "t"
      (fun s _ _ => if s = "b" then some "boom" else none) [0, 1]
      (List.Perm.refl _) 1 (by decide) (by decide)⟩

/-- C4: for every input text and every `maxSize > 0`, every chunk returned
by `splitTextIntoChunks` has length at most `maxSize`, except a chunk that
is a single whitespace-free word (so a single whitespace-delimited word,
emitted verbatim) whose own length exceeds `maxSize`. -/
theorem C4_size_bound (text : List Char) (maxSize : Nat) (hpos : 0 < maxSize) :
    ∀ chunk ∈ splitTextIntoChunks text maxSize,
      chunk.length ≤ maxSize ∨
        (maxSize < chunk.length ∧ ∀ c ∈ chunk, isSpace c = false) := by
  intro ch hm
  rcases splitTextIntoChunks_bound text maxSize ch hm with h | h
  · exact Or.inl h
  · by_cases hl : ch.length ≤ maxSize
    · exact Or.inl hl
    · exact Or.inr ⟨by omega, h⟩

theorem C4_witness :
    0 < 5 ∧
      ∀ chunk ∈ splitTextIntoChunks ("ab".toList) 5,
        chunk.length ≤ 5 ∨ (5 < chunk.length ∧ ∀ c ∈ chunk, isSpace c = false) :=
  ⟨by decide, C4_size_bound ("ab".toList) 5 (by decide)⟩

/-- C5: the claim "no returned chunk is the empty string" is violated by the
code: when a sentence of length exactly `maxSize` arrives while the current
chunk buffer is empty, the flush at `main.go` line 291-294 appends the empty
buffer as a chunk.  On text `"ab"` with `maxSize = 2` the result is
`["", "ab"]`, whose first chunk is empty. -/
theorem C5_empty_chunk_eval :
    splitTextIntoChunks ("ab".toList) 2 = [[], "ab".toList] ∧
      [] ∈ splitTextIntoChunks ("ab".toList) 2 := by
  decide

/-- C6 (amended): every segment returned by `splitIntoSentences` is trimmed
of leading and trailing whitespace; however, empty segments are NOT dropped
(they are returned as empty strings), and `splitIntoSentences` applied to
the empty string returns the one-element sequence `[""]`, not the empty
sequence.  (Empty segments are skipped downstream, by `splitTextIntoChunks`.) -/
theorem C6_trimmed :
    (∀ text s, s ∈ splitIntoSentences text → trimSpace s = s) ∧
      splitIntoSentences [] = [[]] := by
  constructor
  · intro text s hs
    obtain ⟨p, rfl⟩ := mem_splitIntoSentences_trim hs
    exact trimSpace_trimmed p
  · decide

/-- C6 counterexample: on the empty input, `splitIntoSentences` returns the
one-element sequence containing the empty segment — so the result is not
empty and contains an empty (non-dropped) segment, contradicting the claim. -/
theorem C6_counterexample :
    splitIntoSentences [] = [[]] ∧ splitIntoSentences [] ≠ [] ∧
      [] ∈ splitIntoSentences [] := by
  decide

theorem C6_witness :
    (['a'] ∈ splitIntoSentences ("a".toList)) ∧ trimSpace ['a'] = ['a'] :=
  ⟨by decide, C6_trimmed.1 ("a".toList) ['a'] (by decide)⟩

/-- C7: on the input `"Hello world. Hi."` with `maxSize = 10`, the chunker
returns exactly `["Hello", "world.", "Hi."]`: the first sentence exceeds 10
characters and is split on word boundaries, the second fits standalone. -/
theorem C7_example :
    splitTextIntoChunks ("Hello world. Hi.".toList) 10 =
      ["Hello".toList, "world.".toList, "Hi.".toList] := by
  decide

/-- C8 (amended): for every `maxSize` and every text that does not contain
the internal sentinel `"|SEP|"` as a substring, `splitIntoSentences` applied
to the space-joined concatenation of the chunks yields the same number of
segments as applied to the original text. -/
theorem C8_sentence_count (text : List Char) (maxSize : Nat)
    (hmf : containsSub text sepMarker = false) :
    (splitIntoSentences (joinSp (splitTextIntoChunks text maxSize))).length =
      (splitIntoSentences text).length := by
  have hchunks := splitTextIntoChunks_mf maxSize hmf
  have hjmf : containsSub (joinSp (splitTextIntoChunks text maxSize)) sepMarker = false :=
    joinSp_mf hchunks
  rw [length_splitIntoSentences hjmf, length_splitIntoSentences hmf]
  have hfil : (joinSp (splitTextIntoChunks text maxSize)).filter sepChar =
      text.filter sepChar := by
    rw [← filter_sep_filterNS, filterNS_joinSp, splitTextIntoChunks_content,
      sentences_content hmf, filter_sep_filterNS]
  rw [hfil]

/-- C8 counterexample: the claim fails as stated for all texts: the input
`"a|SEP|b."` splits into 3 segments, but the space-joined chunk output
`"a b."` splits into only 2, because the literal sentinel in the input is
consumed by the splitter. -/
theorem C8_counterexample :
    (splitIntoSentences (joinSp (splitTextIntoChunks ("a|SEP|b.".toList) 2800))).length ≠
      (splitIntoSentences ("a|SEP|b.".toList)).length := by
  decide

theorem C8_witness :
    containsSub ("a. b.".toList) sepMarker = false ∧
      (splitIntoSentences (joinSp (splitTextIntoChunks ("a. b.".toList) 2800))).length =
        (splitIntoSentences ("a. b.".toList)).length :=
  ⟨by decide, C8_sentence_count ("a. b.".toList) 2800 (by decide)⟩

/-- C9: in the admission-control system of `generateTTSAudioParallel`
(semaphore of capacity 5: a task starts its synthesis call only when fewer
than 5 tasks hold a slot, and releases its slot only when the call
completes), every state reachable from the all-waiting initial state has at
most 5 synthesis calls in flight. -/
theorem C9_concurrency_cap (n : Nat) (s : List TaskPhase)
    (h : SemReach (List.replicate n TaskPhase.waiting) s) : runningCount s ≤ 5 := by
  induction h with
  | refl => rw [runningCount_replicate_waiting]; omega
  | tail hreach hstep ih => exact semStep_bound hstep ih

theorem C9_witness :
    SemReach (List.replicate 3 TaskPhase.waiting) (List.replicate 3 TaskPhase.waiting) ∧
      runningCount (List.replicate 3 TaskPhase.waiting) ≤ 5 :=
  ⟨SemReach.refl _, C9_concurrency_cap 3 _ (SemReach.refl _)⟩

/-- C10: `concatenateMP3Files` applied to an empty list of input files
succeeds and leaves the output file created/truncated to zero bytes, so a
run with zero chunks produces an empty final artifact rather than an error. -/
theorem C10_empty_concat (fs : FS) (output : String) :
    ∃ fs2, concatenateMP3Files fs [] output = some fs2 ∧ fs2 output = some [] := by
  refine ⟨fsUpdate fs output [], rfl, ?_⟩
  unfold fsUpdate
  simp
